import Mathlib

/-!
# Verification of the hearing-test-tracker OCR pipeline

A shallow embedding of the audiogram OCR pipeline:

* `backend/config.py`            — the standard audiometric frequency list;
* `backend/ocr/coordinate_transformer.py` — axis calibration and the
  pixel → (frequency, dB) transformation;
* `backend/ocr/jacoti_parser.py` — the confidence score and the metadata
  assembly of `parse_jacoti_audiogram`;
* `backend/ocr/text_extractor.py` — the footer regex parsing;
* `backend/ocr/image_processor.py` — graph-region extraction.

Python floats are modelled by `ℝ` (the embedding computes exactly where the
code rounds), pixel coordinates by `ℤ`, and code that can raise returns
`Except String`.
-/

namespace HearingTest

/-- `STANDARD_FREQUENCIES` from `backend/config.py` (line 19): the standard
audiometric frequencies in Hz. -/
def STANDARD_FREQUENCIES : List ℚ := [64, 125, 250, 500, 1000, 2000, 4000, 8000, 16000]

/-- Python's `round(x)` to an integer: round-half-to-even (banker's
rounding), which Python applies to floats. -/
noncomputable def pyRoundInt (x : ℝ) : ℤ :=
  if x - ⌊x⌋ < 1/2 then ⌊x⌋
  else if 1/2 < x - ⌊x⌋ then ⌊x⌋ + 1
  else if Even ⌊x⌋ then ⌊x⌋ else ⌊x⌋ + 1

/-- Python's `round(x, digits)`: round to `digits` decimal places with
round-half-to-even. -/
noncomputable def pyRound (x : ℝ) (digits : ℕ) : ℝ :=
  ((pyRoundInt (x * 10 ^ digits) : ℤ) : ℝ) / 10 ^ digits

/-- The `graph_bounds` dictionary `{x_min, x_max, y_min, y_max}` of pixel
coordinates produced by `extract_graph_region`. -/
structure GraphBounds where
  x_min : ℤ
  x_max : ℤ
  y_min : ℤ
  y_max : ℤ
deriving DecidableEq

/-- The calibration dictionary returned by `calibrate_axes`
(`coordinate_transformer.py`, lines 38–46). -/
structure Calibration where
  x_min : ℤ
  x_max : ℤ
  y_min : ℤ
  y_max : ℤ
  freq_min : ℝ
  freq_scale : ℝ
  db_scale : ℝ

/-- `calibrate_axes` (`coordinate_transformer.py`, lines 7–46).  `np.log10`
is `Real.logb 10`; `STANDARD_FREQUENCIES[0]` and `STANDARD_FREQUENCIES[-1]`
are the head and the last element.  The pure-int division
`(db_max - db_min) / y_range` (line 36) raises `ZeroDivisionError` in Python
when `y_range = 0`, hence the `Except`.  The numpy float division
`(freq_max - freq_min) / x_range` (line 35) does NOT raise on a zero
denominator: numpy emits a runtime warning and yields `inf`, and the function
returns normally; real division by zero (which yields `0` in Lean) stands in
for that non-failing path — the theorems below use only the fact that a
calibration value is returned there, never the junk scale.  `image_width`
and `image_height` are accepted and never read, as in the source. -/
noncomputable def calibrate_axes (graph_bounds : GraphBounds)
    (image_width image_height : ℤ) : Except String Calibration :=
  let freq_min : ℝ := Real.logb 10 ((STANDARD_FREQUENCIES.headI : ℚ) : ℝ)
  let freq_max : ℝ := Real.logb 10 ((STANDARD_FREQUENCIES.getLastD 0 : ℚ) : ℝ)
  let db_min : ℤ := 0
  let db_max : ℤ := 120
  let x_range : ℤ := graph_bounds.x_max - graph_bounds.x_min
  let y_range : ℤ := graph_bounds.y_max - graph_bounds.y_min
  if y_range = 0 then
    Except.error "ZeroDivisionError: division by zero"
  else
    Except.ok
      { x_min := graph_bounds.x_min
        x_max := graph_bounds.x_max
        y_min := graph_bounds.y_min
        y_max := graph_bounds.y_max
        freq_min := freq_min
        freq_scale := (freq_max - freq_min) / (x_range : ℝ)
        db_scale := ((db_max - db_min : ℤ) : ℝ) / (y_range : ℝ) }

/-- One marker position `{'x': int, 'y': int}`. -/
structure MarkerPoint where
  x : ℤ
  y : ℤ
deriving DecidableEq

/-- One audiogram value `{'frequency_hz': ..., 'threshold_db': ...}`. -/
structure Measurement where
  frequency_hz : ℝ
  threshold_db : ℝ

/-- The scan of `_snap_to_standard_frequency` (`coordinate_transformer.py`,
lines 96–99): `differences.index(min(differences))` returns the FIRST index
attaining the minimal `abs(freq - sf)`; the recursion keeps the current best
and replaces it only on a strictly smaller difference, which selects exactly
that first minimiser. -/
noncomputable def snapScan (freq : ℝ) (best : ℚ) : List ℚ → ℚ
  | [] => best
  | sf :: rest =>
      if |freq - (sf : ℝ)| < |freq - (best : ℝ)| then snapScan freq sf rest
      else snapScan freq best rest

/-- `_snap_to_standard_frequency` (`coordinate_transformer.py`, lines
86–99): the nearest standard frequency, first-encountered minimum on ties. -/
noncomputable def _snap_to_standard_frequency (freq : ℝ) : ℚ :=
  match STANDARD_FREQUENCIES with
  | [] => 0
  | sf :: rest => snapScan freq sf rest

/-- The body of the loop of `pixels_to_audiogram_values`
(`coordinate_transformer.py`, lines 65–81): one marker becomes one
measurement; `10 ** log_freq` is `Real.rpow`. -/
noncomputable def convertMarker (calibration : Calibration)
    (marker : MarkerPoint) : Measurement :=
  let x_offset : ℝ := ((marker.x - calibration.x_min : ℤ) : ℝ)
  let log_freq : ℝ := calibration.freq_min + x_offset * calibration.freq_scale
  let frequency_hz : ℝ := (10 : ℝ) ^ log_freq
  let y_offset : ℝ := ((marker.y - calibration.y_min : ℤ) : ℝ)
  let threshold_db : ℝ := y_offset * calibration.db_scale
  { frequency_hz := ((_snap_to_standard_frequency frequency_hz : ℚ) : ℝ)
    threshold_db := pyRound threshold_db 1 }

/-- `pixels_to_audiogram_values` (`coordinate_transformer.py`, lines 49–83):
`results` starts empty and the loop appends one converted marker per input
marker, in order. -/
noncomputable def pixels_to_audiogram_values (markers : List MarkerPoint)
    (calibration : Calibration) : List Measurement :=
  markers.foldl (fun results marker => results ++ [convertMarker calibration marker]) []

/-- `_calculate_confidence` (`jacoti_parser.py`, lines 80–121).  Python's
int/int `/` is exact real division here; `len(set(all_freqs))` is the number
of distinct frequencies, i.e. `List.dedup.length`; the `all(...)` generator
is the universally quantified validity gate; the final `round(score, 2)` is
banker's rounding to two decimals. -/
noncomputable def _calculate_confidence (left_ear right_ear : List Measurement)
    (expected_count : ℕ) : ℝ :=
  let left_count : ℕ := left_ear.length
  let right_count : ℕ := right_ear.length
  let count_score : ℝ :=
    ((min left_count expected_count : ℕ) : ℝ) / (expected_count : ℝ) * 0.25 +
    ((min right_count expected_count : ℕ) : ℝ) / (expected_count : ℝ) * 0.25
  let all_freqs : List ℝ := (left_ear ++ right_ear).map (fun m => m.frequency_hz)
  let unique_freqs : ℕ := all_freqs.dedup.length
  let freq_score : ℝ := min ((unique_freqs : ℝ) / (expected_count : ℝ)) 1 * 0.25
  let db_score : ℝ :=
    @ite _ (∀ m ∈ left_ear ++ right_ear, 0 ≤ m.threshold_db ∧ m.threshold_db ≤ 120)
      (Classical.propDecidable _) 0.25 0
  pyRound (count_score + freq_score + db_score) 2

/-- The result of `extract_jacoti_metadata` (`text_extractor.py`, lines
134–177): each structured field is `None` or a string, and
`raw_footer_text` is always a string. -/
structure ExtractedMetadata where
  date : Option String
  time : Option String
  device : Option String
  location : Option String
  raw_footer_text : String

/-- The metadata dictionary built by `parse_jacoti_audiogram`
(`jacoti_parser.py`, lines 61–66). -/
structure ResultMetadata where
  location : String
  device : String
  time : Option String
  raw_footer_text : String

/-- Python's `a or b` for an optional string `a`: `None` and the empty
string are falsy, so both fall through to the default `b`. -/
def pyOrString (a : Option String) (b : String) : String :=
  match a with
  | none => b
  | some s => if s = "" then b else s

/-- The metadata assembly of `parse_jacoti_audiogram` (`jacoti_parser.py`,
lines 60–66): `extracted_metadata.get('location') or 'Unknown'`,
`extracted_metadata.get('device') or 'Jacoti'`, `time` passed through, and
`extracted_metadata.get('raw_footer_text', '')`. -/
def buildResultMetadata (extracted : ExtractedMetadata) : ResultMetadata :=
  { location := pyOrString extracted.location "Unknown"
    device := pyOrString extracted.device "Jacoti"
    time := extracted.time
    raw_footer_text := extracted.raw_footer_text }

/-- A contour as OpenCV returns it: a nonempty-in-practice list of pixel
points.  Only the bounding rectangle and the area ordering of contours are
consumed by `extract_graph_region`. -/
abbrev Contour : Type := List (ℤ × ℤ)

/-- `cv2.contourArea`: Green's-formula (shoelace) area of the closed
polygon through the contour points, `|Σ (xᵢ·yᵢ₊₁ − xᵢ₊₁·yᵢ)| / 2`
cyclically. -/
def contourArea (c : Contour) : ℚ :=
  match c with
  | [] => 0
  | p₀ :: _ =>
      let pairs := (List.zip c (c.drop 1 ++ [p₀]))
      ((|(pairs.map (fun q => q.1.1 * q.2.2 - q.2.1 * q.1.2)).sum| : ℤ) : ℚ) / 2

/-- Python's `max(contours, key=cv2.contourArea)`: the first contour of
maximal area (later contours replace the current best only when strictly
larger). -/
def maxByArea (first : Contour) (rest : List Contour) : Contour :=
  rest.foldl (fun best c => if contourArea best < contourArea c then c else best) first

/-- `cv2.boundingRect`: `x, y` the minimal coordinates of the points,
`w, h` the pixel extents; a point set spanning columns `x_lo..x_hi` has
width `w = x_hi - x_lo + 1 ≥ 1`.  OpenCV never yields an empty contour;
the `[]` case is dead code under the nonemptiness hypothesis of the
theorems. -/
def boundingRect : Contour → ℤ × ℤ × ℤ × ℤ
  | [] => (0, 0, 0, 0)
  | p :: rest =>
      let x := (rest.map Prod.fst).foldl min p.1
      let y := (rest.map Prod.snd).foldl min p.2
      let w := (rest.map Prod.fst).foldl max p.1 - x + 1
      let h := (rest.map Prod.snd).foldl max p.2 - y + 1
      (x, y, w, h)

/-- `extract_graph_region` (`image_processor.py`, lines 89–118).  The image
enters only through its shape `(height, width)`; `cv2.findContours` is
abstracted as the list of contours it returns.  With no contours the whole
image extent is returned (lines 104–107); otherwise the bounding rectangle
of the largest contour (lines 110–118). -/
def extract_graph_region (height width : ℤ) (contours : List Contour) :
    GraphBounds :=
  match contours with
  | [] => { x_min := 0, x_max := width, y_min := 0, y_max := height }
  | c :: cs =>
      let r := boundingRect (maxByArea c cs)
      { x_min := r.1, x_max := r.1 + r.2.2.1
        y_min := r.2.1, y_max := r.2.1 + r.2.2.2 }

/-! ## Footer parsing (`text_extractor.py`, lines 83–131)

`parse_jacoti_footer` runs `re.search` with the pattern
`Made with\s+(.+?)\s*[-–]\s*(\d{4}[-∕]\d{2}[-∕]\d{2})\s+(\d{1,2}:\d{2})`
(IGNORECASE) and falls back to `re.search` with `(\d{4}[-∕]\d{2}[-∕]\d{2})`.
The matcher below implements exactly these two patterns over `List Char`,
with Python's backtracking preference order: the scan tries start positions
left to right; greedy pieces (`\s+`, `\s*`, `\d{1,2}`) try the longest
consumption first; the lazy group `(.+?)` tries the shortest first; an inner
choice point is exhausted before an outer one advances.  The footer text is
ASCII, so `\s` is the ASCII whitespace class and IGNORECASE is ASCII case
folding. -/

/-- Python regex `\s` on ASCII text. -/
def isSpaceChar (c : Char) : Bool :=
  c = ' ' || c = '\t' || c = '\n' || c = '\r' || c = '\x0b' || c = '\x0c'

/-- The separator class `[-∕]` inside the date pattern. -/
def isDateSep (c : Char) : Bool := c = '-' || c = '/'

/-- The separator class `[-–]` between device and date (hyphen or
en-dash). -/
def isDashChar (c : Char) : Bool := c = '-' || c = '–'

/-- Consume a literal case-insensitively (`re.IGNORECASE`, ASCII). -/
def matchLiteralCI : List Char → List Char → Option (List Char)
  | [], s => some s
  | _ :: _, [] => none
  | l :: ls, c :: cs => if l.toLower = c.toLower then matchLiteralCI ls cs else none

/-- Consume exactly `n` digits (`\d{n}`), returning them and the rest. -/
def matchDigits : ℕ → List Char → Option (List Char × List Char)
  | 0, s => some ([], s)
  | _ + 1, [] => none
  | n + 1, c :: cs =>
      if c.isDigit then (matchDigits n cs).map (fun r => (c :: r.1, r.2)) else none

/-- Consume one character of a class. -/
def matchClass (p : Char → Bool) : List Char → Option (Char × List Char)
  | [] => none
  | c :: cs => if p c then some (c, cs) else none

/-- Consume `\d{4}[-∕]\d{2}[-∕]\d{2}`, returning the matched ten characters
and the rest (the pattern is deterministic: no backtracking inside it). -/
def matchDate (s : List Char) : Option (List Char × List Char) := do
  let (y, s₁) ← matchDigits 4 s
  let (c₁, s₂) ← matchClass isDateSep s₁
  let (mo, s₃) ← matchDigits 2 s₂
  let (c₂, s₄) ← matchClass isDateSep s₃
  let (d, s₅) ← matchDigits 2 s₄
  pure (y ++ c₁ :: mo ++ c₂ :: d, s₅)

/-- Consume `\d{1,2}:\d{2}` (the time), `{1,2}` greedy: two digits are
preferred, one digit is the backtrack. -/
def matchTime (s : List Char) : Option (List Char × List Char) :=
  (do
    let (h, s₁) ← matchDigits 2 s
    let (c, s₂) ← matchClass (fun c => c = ':') s₁
    let (m, s₃) ← matchDigits 2 s₂
    pure (h ++ c :: m, s₃)) <|>
  (do
    let (h, s₁) ← matchDigits 1 s
    let (c, s₂) ← matchClass (fun c => c = ':') s₁
    let (m, s₃) ← matchDigits 2 s₂
    pure (h ++ c :: m, s₃))

/-- The remainders `\s*` can leave, greedy order: the longest whitespace
prefix is consumed first, down to consuming nothing. -/
def wsStarChoices : List Char → List (List Char)
  | [] => [[]]
  | c :: cs =>
      if isSpaceChar c then wsStarChoices cs ++ [c :: cs] else [c :: cs]

/-- The remainders `\s+` can leave: as `\s*` but at least one character. -/
def wsPlusChoices : List Char → List (List Char)
  | [] => []
  | c :: cs => if isSpaceChar c then wsStarChoices cs else []

/-- The splits the lazy group `(.+?)` can make, shortest group first; `.`
matches anything but a newline. -/
def lazyDotChoices : List Char → List (List Char × List Char)
  | [] => []
  | c :: cs =>
      if c = '\n' then []
      else ([c], cs) :: (lazyDotChoices cs).map (fun r => (c :: r.1, r.2))

/-- The first success of `f` over a list of alternatives, in preference
order. -/
def firstSome {α β : Type} (f : α → Option β) : List α → Option β
  | [] => none
  | a :: as =>
      match f a with
      | some b => some b
      | none => firstSome f as

/-- Try the full footer pattern anchored at the current position: the three
captured groups `(device, date, time)` on success.  Alternatives are nested
innermost-fastest, which is the regex engine's backtracking order. -/
def matchFooterAt (s : List Char) : Option (List Char × List Char × List Char) :=
  match matchLiteralCI "Made with".data s with
  | none => none
  | some s₀ =>
      firstSome (fun s₁ =>
        firstSome (fun g =>
          firstSome (fun s₂ =>
            match matchClass isDashChar s₂ with
            | none => none
            | some (_, s₃) =>
                firstSome (fun s₄ =>
                  match matchDate s₄ with
                  | none => none
                  | some (d, s₅) =>
                      firstSome (fun s₆ =>
                        (matchTime s₆).map (fun t => (g.1, d, t.1)))
                        (wsPlusChoices s₅))
                  (wsStarChoices s₃))
            (wsStarChoices g.2))
          (lazyDotChoices s₁))
        (wsPlusChoices s₀)

/-- `re.search` over start positions: the leftmost position where `f`
matches wins. -/
def searchPositions {β : Type} (f : List Char → Option β) : List Char → Option β
  | [] => f []
  | c :: cs =>
      match f (c :: cs) with
      | some b => some b
      | none => searchPositions f cs

/-- `re.search` of the full footer pattern. -/
def searchFooter (s : List Char) : Option (List Char × List Char × List Char) :=
  searchPositions matchFooterAt s

/-- `re.search` of the bare date pattern `(\d{4}[-∕]\d{2}[-∕]\d{2})`. -/
def searchDate (s : List Char) : Option (List Char) :=
  searchPositions (fun t => (matchDate t).map Prod.fst) s

/-- Python `str.strip()`: whitespace removed from both ends. -/
def pyStrip (s : List Char) : List Char :=
  ((s.dropWhile isSpaceChar).reverse.dropWhile isSpaceChar).reverse

/-- `date.replace('/', '-')` (`text_extractor.py`, lines 109 and 125). -/
def normalizeDate (d : List Char) : List Char :=
  d.map (fun c => if c = '/' then '-' else c)

/-- The dictionary `parse_jacoti_footer` returns on success. -/
structure FooterMetadata where
  date : String
  time : Option String
  device : String
  location : String
deriving DecidableEq

/-- `parse_jacoti_footer` (`text_extractor.py`, lines 83–131): the full
template first (device stripped, date normalised); then the bare-date
fallback with device and location `"Unknown"` and `time = None`; `None`
when neither matches.  The Lean function is total: no input raises. -/
def parse_jacoti_footer (footer_text : String) : Option FooterMetadata :=
  match searchFooter footer_text.data with
  | some (g, d, t) =>
      some { date := (normalizeDate d).asString
             time := some t.asString
             device := (pyStrip g).asString
             location := (pyStrip g).asString }
  | none =>
      match searchDate footer_text.data with
      | some d =>
          some { date := (normalizeDate d).asString
                 time := none
                 device := "Unknown"
                 location := "Unknown" }
      | none => none

/-- Rational absolute value by case split (kernel-reducible, unlike the
lattice `|·|`). -/
def ratAbs (q : ℚ) : ℚ := if q < 0 then -q else q

/-- Computable twin of `snapScan` for rational inputs: the casts `ℚ → ℝ`
preserve every comparison, so concrete snaps can be decided here. -/
def snapScanQ (freq best : ℚ) : List ℚ → ℚ
  | [] => best
  | sf :: rest =>
      if ratAbs (freq - sf) < ratAbs (freq - best) then snapScanQ freq sf rest
      else snapScanQ freq best rest

/-- The claim's reading of `_snap_to_standard_frequency`: the result occurs
in the standard list, every entry before that occurrence is strictly
farther from `freq`, and no entry is nearer — i.e. the first-encountered
minimiser of the absolute difference, in list order. -/
def NearestFirstTie (freq : ℝ) (r : ℚ) : Prop :=
  ∃ l₁ l₂ : List ℚ,
    STANDARD_FREQUENCIES = l₁ ++ r :: l₂ ∧
    (∀ s ∈ l₁, |freq - (r : ℝ)| < |freq - (s : ℝ)|) ∧
    (∀ s ∈ STANDARD_FREQUENCIES, |freq - (r : ℝ)| ≤ |freq - (s : ℝ)|)

/-- A `YYYY-MM-DD`-shaped character sequence (separators hyphen or slash):
the claim's "date-shaped substring", stated structurally — four digits, a
separator, two digits, a separator, two digits. -/
def DateShaped (w : List Char) : Prop :=
  ∃ (y mo d : List Char) (c₁ c₂ : Char),
    w = y ++ c₁ :: (mo ++ c₂ :: d) ∧
    y.length = 4 ∧ mo.length = 2 ∧ d.length = 2 ∧
    (∀ ch ∈ y ++ mo ++ d, ch.isDigit = true) ∧
    isDateSep c₁ = true ∧ isDateSep c₂ = true

/-- The calibration `calibrate_axes` produces for the 100×100 bounds box
`(0, 100, 0, 100)` — a concrete fixture for evaluating theorems with
hypotheses. -/
noncomputable def sampleCalibration : Calibration :=
  { x_min := 0
    x_max := 100
    y_min := 0
    y_max := 100
    freq_min := Real.logb 10 ((64 : ℚ) : ℝ)
    freq_scale :=
      (Real.logb 10 ((16000 : ℚ) : ℝ) - Real.logb 10 ((64 : ℚ) : ℝ)) / ((100 : ℤ) : ℝ)
    db_scale := (((120 : ℤ) - 0 : ℤ) : ℝ) / ((100 : ℤ) : ℝ) }

/-!  ## Theorems  -/

theorem pyRoundInt_le (x : ℝ) : (pyRoundInt x : ℝ) ≤ x + 1/2 := by
  have h₁ := Int.floor_le x
  have h₂ := Int.lt_floor_add_one x
  unfold pyRoundInt
  split_ifs <;> push_cast <;> linarith

theorem le_pyRoundInt (x : ℝ) : x - 1/2 ≤ (pyRoundInt x : ℝ) := by
  have h₁ := Int.floor_le x
  have h₂ := Int.lt_floor_add_one x
  unfold pyRoundInt
  split_ifs <;> push_cast <;> linarith

theorem pyRoundInt_mono {x y : ℝ} (h : x ≤ y) : pyRoundInt x ≤ pyRoundInt y := by
  rcases lt_or_ge ⌊x⌋ ⌊y⌋ with hf | hf
  · have hx : pyRoundInt x ≤ ⌊x⌋ + 1 := by
      unfold pyRoundInt; split_ifs <;> omega
    have hy : ⌊y⌋ ≤ pyRoundInt y := by
      unfold pyRoundInt; split_ifs <;> omega
    omega
  · have hfe : ⌊x⌋ = ⌊y⌋ := le_antisymm (Int.floor_le_floor h) hf
    unfold pyRoundInt
    rw [hfe]
    split_ifs <;> first | omega | linarith

theorem pyRound_mono (d : ℕ) {x y : ℝ} (h : x ≤ y) : pyRound x d ≤ pyRound y d := by
  unfold pyRound
  have hm : (pyRoundInt (x * 10 ^ d) : ℝ) ≤ (pyRoundInt (y * 10 ^ d) : ℝ) := by
    exact_mod_cast pyRoundInt_mono (mul_le_mul_of_nonneg_right h (by positivity))
  gcongr

/-- C1: the spec demands that `calibrate_axes` fail fast with a descriptive
error on degenerate bounds and never return a calibration for them.  The
code has no such guard: for zero-WIDTH bounds (`x_max = x_min`, here with
`y`-extent 100) the numpy float division only warns, and a calibration is
returned; for zero-HEIGHT bounds the pure-int division raises a bare
`ZeroDivisionError`, which is a crash at the division site, not the
spec's descriptive fail-fast.  This theorem evaluates the embedding at
both degenerate inputs. -/
theorem claim_C1 :
    (∃ cal, calibrate_axes ⟨0, 0, 0, 100⟩ 1000 1000 = Except.ok cal) ∧
    calibrate_axes ⟨0, 100, 0, 0⟩ 1000 1000 =
      Except.error "ZeroDivisionError: division by zero" := by
  constructor
  · rcases h : calibrate_axes ⟨0, 0, 0, 100⟩ 1000 1000 with e | c
    · rw [calibrate_axes] at h; norm_num at h
      exact absurd h (by simp)
    · exact ⟨c, rfl⟩
  · norm_num [calibrate_axes]

theorem confidence_empty_empty : _calculate_confidence [] [] 9 = 0.25 := by
  unfold _calculate_confidence
  rw [if_pos (by simp)]
  norm_num [pyRound, pyRoundInt]

/-- C2 amended: with both ear sequences empty, `_calculate_confidence`
returns exactly 0.25, not 0 — the count and coverage terms vanish but the
value-validity gate is vacuously true over no measurements and contributes
its full 0.25 weight. -/
theorem claim_C2 : _calculate_confidence [] [] 9 = 0.25 :=
  confidence_empty_empty

/-- C2 counterexample: the claim says the confidence of two empty ear
sequences is exactly 0; it is 0.25. -/
theorem claim_C2_cex : _calculate_confidence [] [] 9 ≠ 0 := by
  rw [confidence_empty_empty]; norm_num

/-- C5: parsing the literal Jacoti footer yields exactly the expected
metadata dictionary. -/
theorem claim_C5 :
    parse_jacoti_footer "Made with Jacoti Hearing Center - 2024-12-17 12:24" =
      some { date := "2024-12-17", time := some "12:24",
             device := "Jacoti Hearing Center", location := "Jacoti Hearing Center" } := by
  decide

/-- C10: the metadata of a completed `parse_jacoti_audiogram` run always
carries non-empty `location` and `device` strings — a missing or empty
device falls back to `"Jacoti"` (not `"Unknown"`), a missing or empty
location to `"Unknown"`; `raw_footer_text` is passed through as a (possibly
empty) string and `time` may be `None`. -/
theorem claim_C10 : ∀ em : ExtractedMetadata,
    (buildResultMetadata em).location ≠ "" ∧
    (buildResultMetadata em).device ≠ "" ∧
    ((em.device = none ∨ em.device = some "") →
      (buildResultMetadata em).device = "Jacoti") ∧
    ((em.location = none ∨ em.location = some "") →
      (buildResultMetadata em).location = "Unknown") ∧
    (buildResultMetadata em).time = em.time ∧
    (buildResultMetadata em).raw_footer_text = em.raw_footer_text := by
  rintro ⟨dt, tm, dev, loc, raw⟩
  refine ⟨?_, ?_, ?_, ?_, rfl, rfl⟩
  · rcases loc with _ | s
    · simp [buildResultMetadata, pyOrString]
    · simp only [buildResultMetadata, pyOrString]
      split_ifs <;> simp_all
  · rcases dev with _ | s
    · simp [buildResultMetadata, pyOrString]
    · simp only [buildResultMetadata, pyOrString]
      split_ifs <;> simp_all
  · rintro (h | h) <;> simp_all [buildResultMetadata, pyOrString]
  · rintro (h | h) <;> simp_all [buildResultMetadata, pyOrString]

theorem maxByArea_mem (first : Contour) (rest : List Contour) :
    maxByArea first rest ∈ first :: rest := by
  unfold maxByArea
  induction rest generalizing first with
  | nil => simp
  | cons c cs ih =>
      simp only [List.foldl_cons]
      rcases List.mem_cons.mp (ih (if contourArea first < contourArea c then c else first)) with h | h
      · rw [h]
        split_ifs with hc
        · exact List.mem_cons_of_mem _ (List.mem_cons_self _ _)
        · exact List.mem_cons_self _ _
      · exact List.mem_cons_of_mem _ (List.mem_cons_of_mem _ h)

theorem foldl_min_le (l : List ℤ) (a : ℤ) : l.foldl min a ≤ a := by
  induction l generalizing a with
  | nil => simp
  | cons x xs ih =>
      simp only [List.foldl_cons]
      exact le_trans (ih (min a x)) (min_le_left a x)

theorem le_foldl_max (l : List ℤ) (a : ℤ) : a ≤ l.foldl max a := by
  induction l generalizing a with
  | nil => simp
  | cons x xs ih =>
      simp only [List.foldl_cons]
      exact le_trans (le_max_left a x) (ih (max a x))

/-- C9: with no contours, `extract_graph_region` returns the full image
extent rather than raising; and (given a positive image extent and the
OpenCV guarantee that contours are nonempty point lists) every returned
`GraphBounds` satisfies `x_min < x_max` and `y_min < y_max`. -/
theorem claim_C9 : ∀ (height width : ℤ) (contours : List Contour),
    0 < height → 0 < width → (∀ c ∈ contours, c ≠ []) →
    (contours = [] →
      extract_graph_region height width contours =
        { x_min := 0, x_max := width, y_min := 0, y_max := height }) ∧
    ((extract_graph_region height width contours).x_min <
        (extract_graph_region height width contours).x_max ∧
      (extract_graph_region height width contours).y_min <
        (extract_graph_region height width contours).y_max) := by
  intro height width contours hh hw hne
  rcases contours with _ | ⟨c, rest⟩
  · refine ⟨fun _ => rfl, ?_, ?_⟩
    · simpa [extract_graph_region] using hw
    · simpa [extract_graph_region] using hh
  · refine ⟨(fun hc => nomatch hc), ?_⟩
    have hmem := maxByArea_mem c rest
    have hne' : maxByArea c rest ≠ [] := hne _ hmem
    rcases hq : maxByArea c rest with _ | ⟨p, pts⟩
    · exact absurd hq hne'
    · have hx1 := foldl_min_le (pts.map Prod.fst) p.1
      have hx2 := le_foldl_max (pts.map Prod.fst) p.1
      have hy1 := foldl_min_le (pts.map Prod.snd) p.2
      have hy2 := le_foldl_max (pts.map Prod.snd) p.2
      simp only [extract_graph_region, hq, boundingRect]
      constructor <;> omega

/-- C9 witness: a 10×20 image with one two-point contour gives bounds with
positive extent. -/
theorem claim_C9_witness :
    (([[(1, 2), (3, 4)]] : List Contour) = [] →
      extract_graph_region 10 20 [[(1, 2), (3, 4)]] =
        { x_min := 0, x_max := 20, y_min := 0, y_max := 10 }) ∧
    ((extract_graph_region 10 20 [[(1, 2), (3, 4)]]).x_min <
        (extract_graph_region 10 20 [[(1, 2), (3, 4)]]).x_max ∧
      (extract_graph_region 10 20 [[(1, 2), (3, 4)]]).y_min <
        (extract_graph_region 10 20 [[(1, 2), (3, 4)]]).y_max) :=
  claim_C9 10 20 [[(1, 2), (3, 4)]] (by decide) (by decide) (by decide)

theorem ratAbs_eq_abs (q : ℚ) : ratAbs q = |q| := by
  unfold ratAbs
  split_ifs with h
  · exact (abs_of_neg h).symm
  · exact (abs_of_nonneg (not_lt.mp h)).symm

theorem snapScan_ratCast (f best : ℚ) (l : List ℚ) :
    snapScan ((f : ℚ) : ℝ) best l = snapScanQ f best l := by
  induction l generalizing best with
  | nil => rfl
  | cons sf rest ih =>
      have hcast : ∀ a : ℚ, ((|f - a| : ℚ) : ℝ) = |((f : ℚ) : ℝ) - ((a : ℚ) : ℝ)| := by
        intro a; push_cast; rfl
      simp only [snapScan, snapScanQ, ratAbs_eq_abs]
      by_cases h : |f - sf| < |f - best|
      · rw [if_pos h, if_pos (by rw [← hcast, ← hcast]; exact_mod_cast h), ih]
      · rw [if_neg h, if_neg (by rw [← hcast, ← hcast]; exact_mod_cast h), ih]

/-- C8: snapping a frequency that is already one of the standard
frequencies returns it unchanged. -/
theorem claim_C8 : ∀ f ∈ STANDARD_FREQUENCIES,
    _snap_to_standard_frequency ((f : ℚ) : ℝ) = f := by
  intro f hf
  have hq : _snap_to_standard_frequency ((f : ℚ) : ℝ) =
      snapScanQ f 64 [125, 250, 500, 1000, 2000, 4000, 8000, 16000] := by
    simp only [_snap_to_standard_frequency, STANDARD_FREQUENCIES]
    exact snapScan_ratCast f 64 _
  rw [hq]
  fin_cases hf <;> norm_num [snapScanQ, ratAbs]

/-- C8 witness: snapping 1000 Hz returns 1000 Hz. -/
theorem claim_C8_witness : _snap_to_standard_frequency ((1000 : ℚ) : ℝ) = 1000 :=
  claim_C8 1000 (by decide)

theorem pyRound_nonneg (d : ℕ) {x : ℝ} (h : 0 ≤ x) : 0 ≤ pyRound x d := by
  unfold pyRound
  have hp : (0:ℝ) < 10 ^ d := by positivity
  have hz : (0:ℤ) ≤ pyRoundInt (x * 10 ^ d) := by
    by_contra hc
    push_neg at hc
    have h0 : pyRoundInt (x * 10 ^ d) ≤ -1 := by omega
    have h1 : (pyRoundInt (x * 10 ^ d) : ℝ) ≤ -1 := by exact_mod_cast h0
    have h2 := le_pyRoundInt (x * 10 ^ d)
    nlinarith
  have : (0:ℝ) ≤ (pyRoundInt (x * 10 ^ d) : ℝ) := by exact_mod_cast hz
  positivity

theorem pyRound_le_one (d : ℕ) {x : ℝ} (h : x ≤ 1) : pyRound x d ≤ 1 := by
  unfold pyRound
  have hp : (0:ℝ) < 10 ^ d := by positivity
  have h1 : (pyRoundInt (x * 10 ^ d) : ℝ) < (10:ℝ) ^ d + 1 := by
    have := pyRoundInt_le (x * 10 ^ d)
    nlinarith
  have hz : pyRoundInt (x * 10 ^ d) < (10:ℤ) ^ d + 1 := by exact_mod_cast h1
  have h2 : (pyRoundInt (x * 10 ^ d) : ℝ) ≤ (10:ℝ) ^ d := by
    exact_mod_cast Int.lt_add_one_iff.mp hz
  rw [div_le_one hp]
  exact h2

/-- C3: the confidence score is the two-decimal (banker's) rounding of the
weighted sum of per-ear count completeness `min(count, expected)/expected`
(0.25 each), frequency coverage `min(unique, expected)/expected` (0.25),
and the all-or-nothing `[0,120]` validity gate (0.25 iff every threshold is
in range, else 0); and the result always lies in `[0, 1]`. -/
theorem claim_C3 : ∀ (left_ear right_ear : List Measurement) (expected_count : ℕ),
    0 < expected_count →
    (_calculate_confidence left_ear right_ear expected_count =
      pyRound
        (((min left_ear.length expected_count : ℕ) : ℝ) / expected_count * 0.25 +
          ((min right_ear.length expected_count : ℕ) : ℝ) / expected_count * 0.25 +
          ((min ((left_ear ++ right_ear).map (fun m => m.frequency_hz)).dedup.length
              expected_count : ℕ) : ℝ) / expected_count * 0.25 +
          (@ite _ (∀ m ∈ left_ear ++ right_ear,
              0 ≤ m.threshold_db ∧ m.threshold_db ≤ 120)
            (Classical.propDecidable _) (0.25 : ℝ) 0)) 2) ∧
    0 ≤ _calculate_confidence left_ear right_ear expected_count ∧
    _calculate_confidence left_ear right_ear expected_count ≤ 1 := by
  intro l r n hn
  have hn' : (0:ℝ) < n := by exact_mod_cast hn
  have hmin : ∀ u : ℕ, ((min u n : ℕ) : ℝ) / n = min ((u:ℝ) / (n:ℝ)) 1 := by
    intro u
    rw [Nat.cast_min]
    rcases le_total (u:ℝ) (n:ℝ) with h | h
    · rw [min_eq_left h, min_eq_left ((div_le_one hn').mpr h)]
    · rw [min_eq_right h, min_eq_right ((le_div_iff hn').mpr (by linarith)),
        div_self (ne_of_gt hn')]
  have heq : _calculate_confidence l r n =
      pyRound
        (((min l.length n : ℕ) : ℝ) / n * 0.25 +
          ((min r.length n : ℕ) : ℝ) / n * 0.25 +
          ((min ((l ++ r).map (fun m => m.frequency_hz)).dedup.length n : ℕ) : ℝ) /
            n * 0.25 +
          (@ite _ (∀ m ∈ l ++ r, 0 ≤ m.threshold_db ∧ m.threshold_db ≤ 120)
            (Classical.propDecidable _) (0.25 : ℝ) 0)) 2 := by
    simp only [_calculate_confidence]
    congr 1
    rw [← hmin]
  have hle1 : ∀ u : ℕ, ((min u n : ℕ) : ℝ) / n ≤ 1 := by
    intro u
    rw [div_le_one hn']
    exact_mod_cast min_le_right u n
  refine ⟨heq, ?_, ?_⟩
  · rw [heq]
    apply pyRound_nonneg
    by_cases hdb : ∀ m ∈ l ++ r, 0 ≤ m.threshold_db ∧ m.threshold_db ≤ 120
    · rw [if_pos hdb]; positivity
    · rw [if_neg hdb]; positivity
  · rw [heq]
    apply pyRound_le_one
    have h1 := hle1 l.length
    have h2 := hle1 r.length
    have h3 := hle1 ((l ++ r).map (fun m => m.frequency_hz)).dedup.length
    by_cases hdb : ∀ m ∈ l ++ r, 0 ≤ m.threshold_db ∧ m.threshold_db ≤ 120
    · rw [if_pos hdb]; linarith
    · rw [if_neg hdb]; linarith

/-- C3 witness: one left-ear measurement (1000 Hz, 20 dB), no right-ear
measurements, expected count 9. -/
theorem claim_C3_witness :
    (_calculate_confidence [{ frequency_hz := 1000, threshold_db := 20 }] [] 9 =
      pyRound
        (((min ([{ frequency_hz := (1000:ℝ), threshold_db := 20 }] :
              List Measurement).length 9 : ℕ) : ℝ) / ((9:ℕ) : ℝ) * 0.25 +
          ((min ([] : List Measurement).length 9 : ℕ) : ℝ) / ((9:ℕ) : ℝ) * 0.25 +
          ((min ((([{ frequency_hz := (1000:ℝ), threshold_db := 20 }] :
                  List Measurement) ++ []).map
                (fun m : Measurement => m.frequency_hz)).dedup.length 9 : ℕ) : ℝ) /
            ((9:ℕ) : ℝ) * 0.25 +
          (@ite _ (∀ m ∈ ([{ frequency_hz := (1000:ℝ), threshold_db := 20 }] :
                List Measurement) ++ [],
              0 ≤ m.threshold_db ∧ m.threshold_db ≤ 120)
            (Classical.propDecidable _) (0.25 : ℝ) 0)) 2) ∧
    0 ≤ _calculate_confidence [{ frequency_hz := 1000, threshold_db := 20 }] [] 9 ∧
    _calculate_confidence [{ frequency_hz := 1000, threshold_db := 20 }] [] 9 ≤ 1 :=
  claim_C3 [{ frequency_hz := 1000, threshold_db := 20 }] [] 9 (by norm_num)

theorem foldl_append_eq_map {α β : Type} (g : α → β) (l : List α) (acc : List β) :
    l.foldl (fun res a => res ++ [g a]) acc = acc ++ l.map g := by
  induction l generalizing acc with
  | nil => simp
  | cons a as ih => simp [ih]

theorem snapScan_nearestFirst (f : ℝ) (cur : ℚ) (l : List ℚ) :
    ∃ l₁ l₂ : List ℚ,
      cur :: l = l₁ ++ (snapScan f cur l) :: l₂ ∧
      (∀ s ∈ l₁, |f - ((snapScan f cur l : ℚ) : ℝ)| < |f - ((s : ℚ) : ℝ)|) ∧
      (∀ s ∈ cur :: l, |f - ((snapScan f cur l : ℚ) : ℝ)| ≤ |f - ((s : ℚ) : ℝ)|) := by
  induction l generalizing cur with
  | nil =>
      refine ⟨[], [], rfl, by simp, ?_⟩
      intro s hs
      rcases List.mem_singleton.mp hs with rfl
      exact le_refl _
  | cons sf rest ih =>
      by_cases h : |f - ((sf : ℚ) : ℝ)| < |f - ((cur : ℚ) : ℝ)|
      · have hsnap : snapScan f cur (sf :: rest) = snapScan f sf rest := by
          simp only [snapScan, if_pos h]
        obtain ⟨l₁, l₂, hdec, hstrict, hmin⟩ := ih sf
        refine ⟨cur :: l₁, l₂, ?_, ?_, ?_⟩
        · rw [hsnap, List.cons_append, ← hdec]
        · intro s hs
          rcases List.mem_cons.mp hs with rfl | hs'
          · rw [hsnap]
            exact lt_of_le_of_lt (hmin sf (List.mem_cons_self _ _)) h
          · rw [hsnap]
            exact hstrict s hs'
        · intro s hs
          rcases List.mem_cons.mp hs with rfl | hs'
          · rw [hsnap]
            exact le_of_lt (lt_of_le_of_lt (hmin sf (List.mem_cons_self _ _)) h)
          · rw [hsnap]
            exact hmin s hs'
      · have h' : |f - ((cur : ℚ) : ℝ)| ≤ |f - ((sf : ℚ) : ℝ)| := not_lt.mp h
        have hsnap : snapScan f cur (sf :: rest) = snapScan f cur rest := by
          simp only [snapScan, if_neg h]
        obtain ⟨l₁, l₂, hdec, hstrict, hmin⟩ := ih cur
        rcases l₁ with _ | ⟨q, l₁'⟩
        · simp only [List.nil_append] at hdec
          have hres : snapScan f cur rest = cur := (List.cons.inj hdec.symm).1
          refine ⟨[], sf :: rest, ?_, by simp, ?_⟩
          · rw [hsnap, hres]
            rfl
          · intro s hs
            rw [hsnap, hres]
            rcases List.mem_cons.mp hs with rfl | hs'
            · exact le_refl _
            · rcases List.mem_cons.mp hs' with rfl | hs''
              · exact h'
              · have := hmin s (List.mem_cons_of_mem _ hs'')
                rw [hres] at this
                exact this
        · have hq : q = cur := (List.cons.inj hdec).1.symm
          have hrest : rest = l₁' ++ snapScan f cur rest :: l₂ :=
            (List.cons.inj hdec).2
          have hstrict_cur : |f - ((snapScan f cur rest : ℚ) : ℝ)| < |f - ((cur : ℚ) : ℝ)| := by
            have := hstrict q (List.mem_cons_self _ _)
            rwa [hq] at this
          refine ⟨cur :: sf :: l₁', l₂, ?_, ?_, ?_⟩
          · rw [hsnap]
            simp only [List.cons_append]
            rw [← hrest]
          · intro s hs
            rw [hsnap]
            rcases List.mem_cons.mp hs with rfl | hs'
            · exact hstrict_cur
            · rcases List.mem_cons.mp hs' with rfl | hs''
              · exact lt_of_lt_of_le hstrict_cur h'
              · exact hstrict s (List.mem_cons_of_mem _ hs'')
          · intro s hs
            rw [hsnap]
            rcases List.mem_cons.mp hs with rfl | hs'
            · exact le_of_lt hstrict_cur
            · rcases List.mem_cons.mp hs' with rfl | hs''
              · exact le_trans (le_of_lt hstrict_cur) h'
              · exact hmin s (List.mem_cons_of_mem _ hs'')

/-- C4: `pixels_to_audiogram_values` is the order-preserving (hence
same-length) map sending marker `(x, y)` to frequency
`10 ^ (freq_min + (x − x_min) · freq_scale)` snapped to the nearest
standard frequency, and to threshold `(y − y_min) · db_scale` rounded to
one decimal — with no clamping of out-of-bounds markers; and the snap
picks the nearest standard frequency by absolute difference, ties broken
by the first-encountered minimum in list order. -/
theorem claim_C4 :
    (∀ (markers : List MarkerPoint) (calibration : Calibration),
      pixels_to_audiogram_values markers calibration =
        markers.map (fun m =>
          { frequency_hz :=
              ((_snap_to_standard_frequency
                  ((10 : ℝ) ^ (calibration.freq_min +
                    ((m.x - calibration.x_min : ℤ) : ℝ) * calibration.freq_scale)) : ℚ) : ℝ)
            threshold_db :=
              pyRound (((m.y - calibration.y_min : ℤ) : ℝ) * calibration.db_scale) 1 })) ∧
    (∀ freq : ℝ, NearestFirstTie freq (_snap_to_standard_frequency freq)) := by
  constructor
  · intro markers cal
    unfold pixels_to_audiogram_values
    rw [foldl_append_eq_map (convertMarker cal)]
    simp [convertMarker]
  · intro f
    obtain ⟨l₁, l₂, hdec, hstrict, hmin⟩ :=
      snapScan_nearestFirst f 64 [125, 250, 500, 1000, 2000, 4000, 8000, 16000]
    have hsn : _snap_to_standard_frequency f =
        snapScan f 64 [125, 250, 500, 1000, 2000, 4000, 8000, 16000] := by
      simp only [_snap_to_standard_frequency, STANDARD_FREQUENCIES]
    refine ⟨l₁, l₂, ?_, ?_, ?_⟩
    · rw [hsn, STANDARD_FREQUENCIES]
      exact hdec
    · intro s hs
      rw [hsn]
      exact hstrict s hs
    · intro s hs
      rw [hsn]
      apply hmin
      rw [STANDARD_FREQUENCIES] at hs
      exact hs

theorem abs_closer_iff {x a b : ℝ} (hab : a < b) :
    |x - b| < |x - a| ↔ a + b < 2 * x := by
  rcases abs_cases (x - b) with ⟨hb, hb'⟩ | ⟨hb, hb'⟩ <;>
    rcases abs_cases (x - a) with ⟨ha, ha'⟩ | ⟨ha, ha'⟩ <;>
    rw [hb, ha] <;>
    constructor <;> intro h <;> linarith

theorem snapScan_stay (f : ℝ) (cur : ℚ) (l : List ℚ)
    (h : ∀ s ∈ l, cur < s ∧ 2 * f ≤ ((cur : ℚ) : ℝ) + ((s : ℚ) : ℝ)) :
    snapScan f cur l = cur := by
  induction l with
  | nil => rfl
  | cons sf rest ih =>
      obtain ⟨hlt, hle⟩ := h sf (List.mem_cons_self _ _)
      have hnot : ¬ |f - ((sf : ℚ) : ℝ)| < |f - ((cur : ℚ) : ℝ)| := by
        rw [abs_closer_iff (by exact_mod_cast hlt : ((cur : ℚ) : ℝ) < ((sf : ℚ) : ℝ))]
        exact not_lt.mpr hle
      simp only [snapScan, if_neg hnot]
      exact ih (fun s hs => h s (List.mem_cons_of_mem _ hs))

theorem le_snapScan (f : ℝ) (cur : ℚ) (l : List ℚ)
    (hp : List.Pairwise (· < ·) (cur :: l)) : cur ≤ snapScan f cur l := by
  induction l generalizing cur with
  | nil => exact le_refl _
  | cons sf rest ih =>
      rcases List.pairwise_cons.mp hp with ⟨hcur, hrest⟩
      by_cases h : |f - ((sf : ℚ) : ℝ)| < |f - ((cur : ℚ) : ℝ)|
      · simp only [snapScan, if_pos h]
        exact le_trans (le_of_lt (hcur sf (List.mem_cons_self _ _))) (ih sf hrest)
      · simp only [snapScan, if_neg h]
        exact ih cur (List.pairwise_cons.mpr
          ⟨fun s hs => hcur s (List.mem_cons_of_mem _ hs),
            (List.pairwise_cons.mp hrest).2⟩)

theorem snapScan_mono {f g : ℝ} (hfg : f ≤ g) (cur : ℚ) (l : List ℚ)
    (hp : List.Pairwise (· < ·) (cur :: l)) :
    snapScan f cur l ≤ snapScan g cur l := by
  induction l generalizing cur with
  | nil => exact le_refl _
  | cons sf rest ih =>
      rcases List.pairwise_cons.mp hp with ⟨hcur, hrest⟩
      have hclt : cur < sf := hcur sf (List.mem_cons_self _ _)
      have hcltR : ((cur : ℚ) : ℝ) < ((sf : ℚ) : ℝ) := by exact_mod_cast hclt
      have hPairRest : List.Pairwise (· < ·) (cur :: rest) :=
        List.pairwise_cons.mpr
          ⟨fun s hs => hcur s (List.mem_cons_of_mem _ hs),
            (List.pairwise_cons.mp hrest).2⟩
      by_cases hf : |f - ((sf : ℚ) : ℝ)| < |f - ((cur : ℚ) : ℝ)|
      · have hg : |g - ((sf : ℚ) : ℝ)| < |g - ((cur : ℚ) : ℝ)| := by
          rw [abs_closer_iff hcltR]
          have := (abs_closer_iff hcltR).mp hf
          linarith
        simp only [snapScan, if_pos hf, if_pos hg]
        exact ih sf hrest
      · by_cases hg : |g - ((sf : ℚ) : ℝ)| < |g - ((cur : ℚ) : ℝ)|
        · simp only [snapScan, if_neg hf, if_pos hg]
          have h2f : 2 * f ≤ ((cur : ℚ) : ℝ) + ((sf : ℚ) : ℝ) :=
            not_lt.mp (fun hc => hf ((abs_closer_iff hcltR).mpr hc))
          have hstay : snapScan f cur rest = cur := by
            apply snapScan_stay
            intro s hs
            have hs1 : sf < s := (List.pairwise_cons.mp hrest).1 s hs
            refine ⟨lt_trans hclt hs1, ?_⟩
            have : ((sf : ℚ) : ℝ) ≤ ((s : ℚ) : ℝ) := by exact_mod_cast le_of_lt hs1
            linarith
          rw [hstay]
          exact le_trans (le_of_lt hclt) (le_snapScan g sf rest hrest)
        · simp only [snapScan, if_neg hf, if_neg hg]
          exact ih cur hPairRest

/-- C7: for a calibration derived from non-degenerate bounds, the derived
frequency is monotone in the marker's `x` (same `y`), and the derived
threshold is monotone in the marker's `y` (same `x`). -/
theorem claim_C7 :
    ∀ (gb : GraphBounds) (iw ih : ℤ) (cal : Calibration) (x₁ x₂ y y₁ y₂ x : ℤ),
    gb.x_min < gb.x_max → gb.y_min < gb.y_max →
    calibrate_axes gb iw ih = Except.ok cal →
    x₁ < x₂ → y₁ < y₂ →
    (pixels_to_audiogram_values [⟨x₁, y⟩, ⟨x₂, y⟩] cal =
        [convertMarker cal ⟨x₁, y⟩, convertMarker cal ⟨x₂, y⟩] ∧
      (convertMarker cal ⟨x₁, y⟩).frequency_hz ≤
        (convertMarker cal ⟨x₂, y⟩).frequency_hz) ∧
    (pixels_to_audiogram_values [⟨x, y₁⟩, ⟨x, y₂⟩] cal =
        [convertMarker cal ⟨x, y₁⟩, convertMarker cal ⟨x, y₂⟩] ∧
      (convertMarker cal ⟨x, y₁⟩).threshold_db ≤
        (convertMarker cal ⟨x, y₂⟩).threshold_db) := by
  intro gb iw ih cal x₁ x₂ y y₁ y₂ x hx hy hcal hx12 hy12
  have hyne : gb.y_max - gb.y_min ≠ 0 := by omega
  rw [calibrate_axes] at hcal
  simp only [if_neg hyne, Except.ok.injEq, STANDARD_FREQUENCIES, List.headI,
    List.getLastD_cons, List.getLastD_nil] at hcal
  subst hcal
  have hxr : (0:ℝ) < ((gb.x_max - gb.x_min : ℤ) : ℝ) := by
    exact_mod_cast (by omega : (0:ℤ) < gb.x_max - gb.x_min)
  have hyr : (0:ℝ) < ((gb.y_max - gb.y_min : ℤ) : ℝ) := by
    exact_mod_cast (by omega : (0:ℤ) < gb.y_max - gb.y_min)
  have hlogs : Real.logb 10 (((64:ℚ) : ℝ)) < Real.logb 10 (((16000:ℚ) : ℝ)) := by
    apply Real.logb_lt_logb (by norm_num) (by norm_num)
    norm_num
  have hfs : 0 < (Real.logb 10 (((16000:ℚ) : ℝ)) - Real.logb 10 (((64:ℚ) : ℝ))) /
      ((gb.x_max - gb.x_min : ℤ) : ℝ) := by
    apply div_pos (by linarith) hxr
  have hds : 0 < (((120:ℤ) - (0:ℤ) : ℤ) : ℝ) / ((gb.y_max - gb.y_min : ℤ) : ℝ) := by
    apply div_pos (by norm_num) hyr
  have hpair : List.Pairwise (· < ·)
      ((64:ℚ) :: [125, 250, 500, 1000, 2000, 4000, 8000, 16000]) := by
    norm_num [List.pairwise_cons]
  refine ⟨⟨?_, ?_⟩, ⟨?_, ?_⟩⟩
  · simp [pixels_to_audiogram_values]
  · simp only [convertMarker]
    apply Rat.cast_le.mpr
    have hsnap : ∀ u v : ℝ, u ≤ v →
        _snap_to_standard_frequency u ≤ _snap_to_standard_frequency v := by
      intro u v huv
      simp only [_snap_to_standard_frequency, STANDARD_FREQUENCIES]
      exact snapScan_mono huv 64 _ hpair
    apply hsnap
    apply Real.rpow_le_rpow_of_exponent_le (by norm_num)
    have hxo : ((x₁ - gb.x_min : ℤ) : ℝ) ≤ ((x₂ - gb.x_min : ℤ) : ℝ) := by
      exact_mod_cast (by omega : x₁ - gb.x_min ≤ x₂ - gb.x_min)
    have hmul := mul_le_mul_of_nonneg_right hxo (le_of_lt hfs)
    linarith
  · simp [pixels_to_audiogram_values]
  · simp only [convertMarker]
    apply pyRound_mono
    have hyo : ((y₁ - gb.y_min : ℤ) : ℝ) ≤ ((y₂ - gb.y_min : ℤ) : ℝ) := by
      exact_mod_cast (by omega : y₁ - gb.y_min ≤ y₂ - gb.y_min)
    have hmul := mul_le_mul_of_nonneg_right hyo (le_of_lt hds)
    linarith

/-- C7 witness: the 100×100 bounds box, markers at `x = 10 < 20` (same
`y = 5`) and `y = 30 < 40` (same `x = 7`). -/
theorem claim_C7_witness :
    (pixels_to_audiogram_values [⟨10, 5⟩, ⟨20, 5⟩] sampleCalibration =
        [convertMarker sampleCalibration ⟨10, 5⟩,
          convertMarker sampleCalibration ⟨20, 5⟩] ∧
      (convertMarker sampleCalibration ⟨10, 5⟩).frequency_hz ≤
        (convertMarker sampleCalibration ⟨20, 5⟩).frequency_hz) ∧
    (pixels_to_audiogram_values [⟨7, 30⟩, ⟨7, 40⟩] sampleCalibration =
        [convertMarker sampleCalibration ⟨7, 30⟩,
          convertMarker sampleCalibration ⟨7, 40⟩] ∧
      (convertMarker sampleCalibration ⟨7, 30⟩).threshold_db ≤
        (convertMarker sampleCalibration ⟨7, 40⟩).threshold_db) :=
  claim_C7 ⟨0, 100, 0, 100⟩ 1000 1000 sampleCalibration 10 20 5 30 40 7
    (by decide) (by decide)
    (by norm_num [calibrate_axes, sampleCalibration, STANDARD_FREQUENCIES])
    (by decide) (by decide)

theorem matchDigits_some {n : ℕ} {t d r : List Char}
    (h : matchDigits n t = some (d, r)) :
    t = d ++ r ∧ d.length = n ∧ ∀ c ∈ d, c.isDigit = true := by
  induction n generalizing t d r with
  | zero =>
      simp only [matchDigits, Option.some.injEq, Prod.mk.injEq] at h
      obtain ⟨hd, hr⟩ := h
      subst hd; subst hr
      simp
  | succ n ih =>
      cases t with
      | nil => simp [matchDigits] at h
      | cons c cs =>
          simp only [matchDigits] at h
          split_ifs at h with hc
          · rcases Option.map_eq_some'.mp h with ⟨⟨d', r'⟩, hmd, heq⟩
            obtain ⟨ht', hlen, hdig⟩ := ih hmd
            simp only [Prod.mk.injEq] at heq
            obtain ⟨hd, hr⟩ := heq
            subst hd; subst hr
            refine ⟨by simp [ht'], by simp [hlen], ?_⟩
            intro x hx
            rcases List.mem_cons.mp hx with rfl | hx'
            · exact hc
            · exact hdig x hx'

theorem matchDigits_construct {n : ℕ} {y r : List Char}
    (hlen : y.length = n) (hdig : ∀ c ∈ y, c.isDigit = true) :
    matchDigits n (y ++ r) = some (y, r) := by
  induction n generalizing y with
  | zero =>
      rcases List.length_eq_zero.mp hlen
      simp [matchDigits]
  | succ n ih =>
      cases y with
      | nil => simp at hlen
      | cons c cs =>
          simp only [List.cons_append, matchDigits,
            if_pos (hdig c (List.mem_cons_self _ _))]
          rw [show cs.append r = cs ++ r from rfl,
            ih (by simpa using hlen) (fun x hx => hdig x (List.mem_cons_of_mem _ hx))]
          rfl

theorem matchClass_some {p : Char → Bool} {t : List Char} {c : Char} {r : List Char}
    (h : matchClass p t = some (c, r)) : t = c :: r ∧ p c = true := by
  cases t with
  | nil => simp [matchClass] at h
  | cons a as =>
      simp only [matchClass] at h
      split_ifs at h with hp
      · simp only [Option.some.injEq, Prod.mk.injEq] at h
        obtain ⟨rfl, rfl⟩ := h
        exact ⟨rfl, hp⟩

theorem matchDate_some {t d r : List Char} (h : matchDate t = some (d, r)) :
    DateShaped d ∧ t = d ++ r := by
  simp only [matchDate, Option.bind_eq_bind', Option.bind_eq_some, Option.pure_def,
    Option.some.injEq, Prod.mk.injEq] at h
  obtain ⟨⟨y, s₁⟩, h4, ⟨c₁, s₂⟩, hc1, ⟨mo, s₃⟩, h2, ⟨c₂, s₄⟩, hc2, ⟨dd, s₅⟩, h2',
    hfd, hfr⟩ := h
  dsimp only at hc1 h2 hc2 h2' hfd hfr
  obtain ⟨ht4, hylen, hydig⟩ := matchDigits_some h4
  obtain ⟨hs₁, hc₁sep⟩ := matchClass_some hc1
  obtain ⟨hs₂, hmolen, hmodig⟩ := matchDigits_some h2
  obtain ⟨hs₃, hc₂sep⟩ := matchClass_some hc2
  obtain ⟨hs₄, hddlen, hdddig⟩ := matchDigits_some h2'
  subst hfd; subst hfr
  constructor
  · refine ⟨y, mo, dd, c₁, c₂, by simp, hylen, hmolen, hddlen, ?_, hc₁sep, hc₂sep⟩
    intro ch hch
    rcases List.mem_append.mp hch with hch' | hch''
    · rcases List.mem_append.mp hch' with hy | hm
      · exact hydig ch hy
      · exact hmodig ch hm
    · exact hdddig ch hch''
  · rw [ht4, hs₁, hs₂, hs₃, hs₄]
    simp

theorem matchDate_construct {w r : List Char} (h : DateShaped w) :
    matchDate (w ++ r) = some (w, r) := by
  obtain ⟨y, mo, dd, c₁, c₂, hw, hy, hmo, hdd, hdig, hc₁, hc₂⟩ := h
  subst hw
  have hdigy : ∀ c ∈ y, c.isDigit = true := fun c hc => hdig c (by simp [hc])
  have hdigm : ∀ c ∈ mo, c.isDigit = true := fun c hc => hdig c (by simp [hc])
  have hdigd : ∀ c ∈ dd, c.isDigit = true := fun c hc => hdig c (by simp [hc])
  have hassoc : (y ++ c₁ :: (mo ++ c₂ :: dd)) ++ r =
      y ++ (c₁ :: (mo ++ (c₂ :: (dd ++ r)))) := by simp
  simp only [matchDate, Option.bind_eq_bind']
  rw [hassoc, matchDigits_construct hy hdigy]
  simp only [Option.some_bind']
  rw [show matchClass isDateSep (c₁ :: (mo ++ (c₂ :: (dd ++ r)))) =
      some (c₁, mo ++ (c₂ :: (dd ++ r))) from by simp [matchClass, hc₁]]
  simp only [Option.some_bind']
  rw [matchDigits_construct hmo hdigm]
  simp only [Option.some_bind']
  rw [show matchClass isDateSep (c₂ :: (dd ++ r)) = some (c₂, dd ++ r) from by
    simp [matchClass, hc₂]]
  simp only [Option.some_bind']
  rw [matchDigits_construct hdd hdigd]
  simp only [Option.some_bind']
  simp [List.append_assoc]

theorem searchPositions_none {β : Type} {f : List Char → Option β} {t : List Char}
    (h : ∀ i, f (t.drop i) = none) : searchPositions f t = none := by
  induction t with
  | nil => exact h 0
  | cons c cs ih =>
      have h0 := h 0
      simp only [List.drop_zero] at h0
      simp only [searchPositions, h0]
      exact ih (fun i => h (i + 1))

theorem searchPositions_isSome {β : Type} {f : List Char → Option β} {t : List Char}
    {i : ℕ} {b : β} (h : f (t.drop i) = some b) :
    ∃ b', searchPositions f t = some b' := by
  induction t generalizing i with
  | nil =>
      simp only [List.drop_nil] at h
      exact ⟨b, by simpa [searchPositions] using h⟩
  | cons c cs ih =>
      cases hf : f (c :: cs) with
      | some b' => exact ⟨b', by simp [searchPositions, hf]⟩
      | none =>
          cases i with
          | zero =>
              simp only [List.drop_zero] at h
              exact absurd h (by simp [hf])
          | succ j =>
              simp only [List.drop_succ_cons] at h
              obtain ⟨b', hb'⟩ := ih h
              exact ⟨b', by simp [searchPositions, hf, hb']⟩

theorem searchPositions_elim {β : Type} {f : List Char → Option β} {t : List Char}
    {b : β} (h : searchPositions f t = some b) : ∃ i, f (t.drop i) = some b := by
  induction t with
  | nil => exact ⟨0, by simpa [searchPositions] using h⟩
  | cons c cs ih =>
      rcases hf : f (c :: cs) with _ | b'
      · simp only [searchPositions, hf] at h
        obtain ⟨i, hi⟩ := ih h
        exact ⟨i + 1, by simpa using hi⟩
      · simp only [searchPositions, hf, Option.some.injEq] at h
        exact ⟨0, by simpa [hf] using h⟩

theorem searchDate_props {t : List Char} {d : List Char}
    (h : searchDate t = some d) :
    DateShaped d ∧ ∃ pre post, t = pre ++ d ++ post := by
  obtain ⟨i, hi⟩ := searchPositions_elim h
  rcases hmd : matchDate (t.drop i) with _ | ⟨d', r⟩
  · rw [hmd] at hi; simp at hi
  · rw [hmd] at hi
    simp only [Option.map_some', Option.some.injEq] at hi
    subst hi
    obtain ⟨hshape, hdec⟩ := matchDate_some hmd
    refine ⟨hshape, t.take i, r, ?_⟩
    have ht : t = t.take i ++ t.drop i := (List.take_append_drop i t).symm
    conv_lhs => rw [ht]
    rw [hdec]
    simp

theorem searchDate_of_contains {t : List Char}
    (h : ∃ pre w post, t = pre ++ w ++ post ∧ DateShaped w) :
    ∃ d, searchDate t = some d := by
  obtain ⟨pre, w, post, ht, hshape⟩ := h
  have hdrop : t.drop pre.length = w ++ post := by
    rw [ht, List.append_assoc, List.drop_left]
  have hmd : matchDate (t.drop pre.length) = some (w, post) := by
    rw [hdrop]
    exact matchDate_construct hshape
  have hf : (fun u => (matchDate u).map Prod.fst) (t.drop pre.length) = some w := by
    show (matchDate (t.drop pre.length)).map Prod.fst = some w
    rw [hmd]
    rfl
  unfold searchDate
  exact searchPositions_isSome hf

/-- C6: `parse_jacoti_footer` never raises (the embedding is a total
function) and tries an ordered fallback chain — the full
`Made with <device> - <date> <time>` template first; failing that, a bare
scan for a `YYYY-MM-DD`-shaped substring, yielding a partial result whose
date is such a substring of the input, `time` null and device/location
`"Unknown"`; and `None` when neither matches.  The two concrete examples of
the claim are evaluated. -/
theorem claim_C6 :
    (∀ (s : String) (r : List Char × List Char × List Char),
      searchFooter s.data = some r →
      parse_jacoti_footer s = some
        { date := (normalizeDate r.2.1).asString
          time := some r.2.2.asString
          device := (pyStrip r.1).asString
          location := (pyStrip r.1).asString }) ∧
    (∀ s : String, searchFooter s.data = none →
      (∃ pre w post, s.data = pre ++ w ++ post ∧ DateShaped w) →
      ∃ d pre post, searchDate s.data = some d ∧ s.data = pre ++ d ++ post ∧
        DateShaped d ∧
        parse_jacoti_footer s = some
          { date := (normalizeDate d).asString, time := none
            device := "Unknown", location := "Unknown" }) ∧
    (∀ s : String, searchFooter s.data = none →
      ¬ (∃ pre w post, s.data = pre ++ w ++ post ∧ DateShaped w) →
      parse_jacoti_footer s = none) ∧
    parse_jacoti_footer "Some other text 2024-12-17 more text" =
      some { date := "2024-12-17", time := none,
             device := "Unknown", location := "Unknown" } ∧
    parse_jacoti_footer "Invalid footer text with no date" = none := by
  refine ⟨?_, ?_, ?_, by decide, by decide⟩
  · intro s r h
    rcases r with ⟨g, d, t⟩
    simp [parse_jacoti_footer, searchFooter] at h ⊢
    rw [h]
  · intro s hfull hcont
    obtain ⟨d, hd⟩ := searchDate_of_contains hcont
    obtain ⟨hshape, pre, post, hdec⟩ := searchDate_props hd
    refine ⟨d, pre, post, hd, hdec, hshape, ?_⟩
    simp only [parse_jacoti_footer, searchFooter] at hfull ⊢
    rw [hfull, hd]
  · intro s hfull hncont
    have hnone : searchDate s.data = none := by
      apply searchPositions_none
      intro i
      rcases hmd : matchDate (s.data.drop i) with _ | ⟨w, r⟩
      · rfl
      · exfalso
        obtain ⟨hshape, hdec⟩ := matchDate_some hmd
        apply hncont
        refine ⟨s.data.take i, w, r, ?_, hshape⟩
        have ht : s.data = s.data.take i ++ s.data.drop i :=
          (List.take_append_drop i s.data).symm
        conv_lhs => rw [ht]
        rw [hdec]
        simp
    simp only [parse_jacoti_footer, searchFooter] at hfull ⊢
    rw [hfull, hnone]

end HearingTest
